import Mathlib

/-!
Shallow embedding of the VoronoiTest repository core (vect_store.py,
rotational_sort.py, Voronoi.py) over exact rational arithmetic.

Machine floats are modelled as rationals; Python runtime exceptions are
modelled with an explicit error type and `Except` results.  The external
linear solver (`np.linalg.solve` on a 2x2 system) is modelled exactly: it
fails with a singular-matrix error precisely when the determinant is zero,
and otherwise returns the Cramer solution.
-/

namespace VoronoiTest

/-- Python runtime errors that the modelled code can raise. -/
inductive PyErr where
  | valueError
  | zeroDivision
  | linAlgError
  | typeError
  | indexError
deriving DecidableEq, Repr, Fintype

/-- Model of `vect_store.Vector`: a list of direction components plus an
origin point.  `__init__` keeps both as given (floats become rationals). -/
structure PyVec where
  components : List ℚ
  origin : List ℚ
deriving DecidableEq, Repr

/-- Model of `Vector.from_points(P, Q)`: the vector from P to Q anchored at
P; raises ValueError when the coordinate lists differ in length. -/
def from_points (P Q : List ℚ) : Except PyErr PyVec :=
  if P.length ≠ Q.length then Except.error PyErr.valueError
  else Except.ok ⟨(P.zip Q).map (fun pq => pq.2 - pq.1), P⟩

/-- Model of the `Vector.endpoint` property: componentwise origin plus
direction, truncating at the shorter list exactly as the `zip` in the
source does. -/
def endpoint (v : PyVec) : List ℚ :=
  List.zipWith (fun o c => o + c) v.origin v.components

/-- Model of `Vector.__add__`: `self + other` is
`Vector.from_points(other.endpoint, self.origin)`. -/
def vadd (self other : PyVec) : Except PyErr PyVec :=
  from_points (endpoint other) self.origin

/-- Model of `Vector.is_parallel`.  The scalar ratio is taken from the
first components when `other[0] != 0` and from the second components
otherwise (raising ZeroDivisionError when `other[1] == 0`); the scaled
vector is then compared with `self` by component-tuple equality, which is
how `__eq__`/`__hash__` compare vectors (direction only). -/
def is_parallel (self other : PyVec) : Except PyErr Bool :=
  match other.components with
  | [] => Except.error PyErr.indexError
  | o0 :: orest =>
    if o0 ≠ 0 then
      match self.components with
      | [] => Except.error PyErr.indexError
      | s0 :: _ =>
        Except.ok (decide ((o0 :: orest).map (fun x => (s0 / o0) * x) = self.components))
    else
      match self.components, orest with
      | _ :: s1 :: _, o1 :: _ =>
        if o1 = 0 then Except.error PyErr.zeroDivision
        else Except.ok (decide ((o0 :: orest).map (fun x => (s1 / o1) * x) = self.components))
      | _, _ => Except.error PyErr.indexError

/-- Model of `Vector.intersect_boundary(axis, val)`.  `dirn` is `[1, 1]`
with the queried axis zeroed; the parallel test builds the vector
`point_and_direction([(1-v)*val for v in dirn], [v*m*1.2 for v, m in
zip(dirn, self.endpoint)])` and asks `self.is_parallel(test)`; a positive
answer raises ValueError, after which the 2x2 system
`stack([[-v for v in dirn], components[:2]]).T x = [(1-v)*val - o]` is
solved (LinAlgError when singular) and `x[0]` is combined with `val`. -/
def intersect_boundary (self : PyVec) (axis : Nat) (val : ℚ) : Except PyErr (List ℚ) :=
  if 2 ≤ axis then Except.error PyErr.indexError
  else
    let d0 : ℚ := if axis = 0 then 0 else 1
    let d1 : ℚ := if axis = 0 then 1 else 0
    let test : PyVec :=
      ⟨List.zipWith (fun v m => v * m * (6 / 5)) [d0, d1] (endpoint self),
       [(1 - d0) * val, (1 - d1) * val]⟩
    match is_parallel self test with
    | Except.error err => Except.error err
    | Except.ok true => Except.error PyErr.valueError
    | Except.ok false =>
      match self.components.take 2, self.origin with
      | [c0, c1], g0 :: g1 :: _ =>
        let b0 := (1 - d0) * val - g0
        let b1 := (1 - d1) * val - g1
        let det := (-d0) * c1 - c0 * (-d1)
        if det = 0 then Except.error PyErr.linAlgError
        else
          let solve0 := (b0 * c1 - c0 * b1) / det
          Except.ok (if axis = 0 then [val, solve0] else [solve0, val])
      | _, _ => Except.error PyErr.indexError

/-- The four domain boundary lines tried by `_generate_voronoi`, in source
order: `x=0`, `x=xlim`, `y=0`, `y=ylim`. -/
def clip_bounds (xlim ylim : ℚ) : List (Nat × ℚ) :=
  [(0, 0), (0, xlim), (1, 0), (1, ylim)]

/-- One boundary-gathering pass of `_generate_voronoi` (lines 372-384): for
each boundary, `outer.intersect_boundary` is attempted inside a
`try/except np.linalg.LinAlgError` block, so only LinAlgError is
discarded; any other exception propagates and aborts construction. -/
def gather_go (outer : PyVec) : List (Nat × ℚ) → Except PyErr (List (List ℚ))
  | [] => Except.ok []
  | b :: rest =>
    match intersect_boundary outer b.1 b.2 with
    | Except.ok p =>
      match gather_go outer rest with
      | Except.ok ps => Except.ok (p :: ps)
      | Except.error e => Except.error e
    | Except.error PyErr.linAlgError => gather_go outer rest
    | Except.error e => Except.error e

/-- The gathered candidate intersections of the outward vector with all
four domain boundary lines, as collected by `_generate_voronoi`. -/
def gather_intersects (outer : PyVec) (xlim ylim : ℚ) : Except PyErr (List (List ℚ)) :=
  gather_go outer (clip_bounds xlim ylim)

/-- Model of `Voronoi.Region`: generator origin, ordered boundary points,
numeric id, and the lazily cached `_area` attribute (`none` models the
attribute being absent, which is what the hasattr test on `_area` checks). -/
structure Region where
  origin : ℚ × ℚ
  points : List (ℚ × ℚ)
  id : ℤ
  areaCache : Option ℚ
deriving DecidableEq, Repr

/-- The shoelace accumulator of `Region.centroid`: over consecutive pairs
of the (already wrap-around-closed) point list it sums
`x0*y1 - x1*y0`, `(x0+x1)*shoelace` and `(y0+y1)*shoelace`, returning
(A-sum, Cx-sum, Cy-sum). -/
def shoelaceAcc : List (ℚ × ℚ) → ℚ × ℚ × ℚ
  | p0 :: p1 :: rest =>
    let sl := p0.1 * p1.2 - p1.1 * p0.2
    let t := shoelaceAcc (p1 :: rest)
    (sl + t.1, (p0.1 + p1.1) * sl + t.2.1, (p0.2 + p1.2) * sl + t.2.2)
  | _ => (0, 0, 0)

/-- Arithmetic mean as computed by `np.mean`. -/
def meanQ (l : List ℚ) : ℚ := l.sum / l.length

/-- Model of the `Region.centroid` property.  Returns `none` for an empty
point list; otherwise it appends the first point to the stored list in
place (the wrap-around point), accumulates the shoelace sums, and either
falls back to `np.mean` over the (now mutated) stored coordinates when
the signed area is zero, or returns the weighted centroid and caches
`_area = |A|`.  The second component is the region state after the
mutation. -/
def centroid (r : Region) : Option (ℚ × ℚ) × Region :=
  match r.points with
  | [] => (none, r)
  | p0 :: _ =>
    let pts := r.points ++ [p0]
    let acc := shoelaceAcc pts
    let A := acc.1 / 2
    if A = 0 then
      (some (meanQ (pts.map (fun p => p.1)), meanQ (pts.map (fun p => p.2))),
       { r with points := pts })
    else
      (some (acc.2.1 * (1 / (6 * A)), acc.2.2 * (1 / (6 * A))),
       { r with points := pts, areaCache := some |A| })

/-- Model of the `Region.area` property.  When `_area` is absent the source
executes `self.centroid()`: the property access evaluates the centroid
(with its side effects), and the call expression then applies the
resulting tuple (or None), which raises TypeError before anything is
returned. -/
def area (r : Region) : Except PyErr (ℚ × Region) :=
  match r.areaCache with
  | some a => Except.ok (a, r)
  | none =>
    let _evaluated := centroid r
    Except.error PyErr.typeError

/-- Model of the `Voronoi.lloyds_relax` loop (lines 417-424).  The Python
loop `for region in self._regions` iterates by index; `self._regions.remove(region)`
deletes the current element in place, so after a removal the iterator
index has already moved past the element that slid into the freed slot.
Centroid side effects (the wrap-around append) are written back in place. -/
def lloyds_go (regions : List Region) (k : Nat) (pt : List (ℚ × ℚ)) :
    List Region × List (ℚ × ℚ) :=
  if h : k < regions.length then
    let r := regions.get ⟨k, h⟩
    let cres := centroid r
    match cres.1 with
    | some c => lloyds_go (regions.set k cres.2) (k + 1) (pt ++ [c])
    | none => lloyds_go (regions.eraseIdx k) (k + 1) pt
  else (regions, pt)
termination_by regions.length - k
decreasing_by
  · simp only [List.length_set]
    omega
  · have hlen : (regions.eraseIdx k).length = regions.length - 1 := by
      rw [List.length_eraseIdx]
      simp [h]
    omega

/-- Model of `Voronoi.lloyds_relax`: the surviving region list and the new
generator point list handed to `_generate_voronoi`. -/
def lloyds_relax (regions : List Region) : List Region × List (ℚ × ℚ) :=
  lloyds_go regions 0 []

/-- Exact encoding of one computed angle of `rotational_sort`.  The source
computes `acos(dot/(|ref||v|))` in degrees (a value in [0, 180]) and
replaces it by `360 - angle` when the point lies left of the centre
(`refl`).  With `ref = (0, M)` and `v = p - avg` the cosine is exactly
`n / sqrt s` with `n = M * vy` and `s = M^2 * (vx^2 + vy^2)`; ordering and
equality of the angles are decided exactly from `refl`, `n` and `s`. -/
structure AKey where
  refl : Bool
  n : ℚ
  s : ℚ
deriving DecidableEq, Repr

/-- Exact comparison `n1/sqrt s1 < n2/sqrt s2` of two cosine encodings
(for well-formed keys, where `0 < s` and `n^2 ≤ s`). -/
def cosLtB (a b : AKey) : Bool :=
  decide ((a.n < 0 ∧ 0 ≤ b.n) ∨
    (0 ≤ a.n ∧ 0 ≤ b.n ∧ a.n ^ 2 * b.s < b.n ^ 2 * a.s) ∨
    (a.n < 0 ∧ b.n < 0 ∧ b.n ^ 2 * a.s < a.n ^ 2 * b.s))

/-- The encoded cosine equals exactly -1 (the 180-degree angle). -/
def neg1B (a : AKey) : Bool := decide (a.n < 0 ∧ a.n ^ 2 = a.s)

/-- Exact order on computed angles.  `acos` is strictly decreasing, so on
the unreflected side a smaller angle is a larger cosine; on the reflected
side (`360 - angle`) the order flips; an unreflected angle (at most 180)
precedes a reflected one (at least 180) except when both equal 180, i.e.
both cosines are exactly -1. -/
def angleLtB (a b : AKey) : Bool :=
  if a.refl then
    if b.refl then cosLtB a b else false
  else
    if b.refl then !(neg1B a && neg1B b) else cosLtB b a

/-- A key arising from an actual nonzero reference vector and a point
distinct from the centre: positive squared norm and a cosine in [-1, 1]. -/
def AKey.valid (a : AKey) : Prop := 0 < a.s ∧ a.n ^ 2 ≤ a.s

/-- Python list comparison on two-element float lists, used by `sorted` to
break ties between equal angles when the zipped payloads are points. -/
def ptLeB (p q : ℚ × ℚ) : Bool :=
  decide (p.1 < q.1 ∨ (p.1 = q.1 ∧ p.2 ≤ q.2))

/-- Python int comparison, used by `sorted` to break ties between equal
angles when the zipped payloads are ids. -/
def idLeB (a b : ℤ) : Bool := decide (a ≤ b)

/-- The comparator realised by `sorted(zip(angles, payload), reverse=ccw)`:
lexicographic on the exact angle first, then on the payload, with the
whole comparison reversed when `ccw` is set. -/
def pairLeB (tie : α → α → Bool) (ccw : Bool) (x y : AKey × α) : Bool :=
  if ccw then
    if angleLtB y.1 x.1 then true
    else if angleLtB x.1 y.1 then false
    else tie y.2 x.2
  else
    if angleLtB x.1 y.1 then true
    else if angleLtB y.1 x.1 then false
    else tie x.2 y.2

/-- Stable insertion of an element into a list: placed before the first
element `b` with `le a b`, hence after every earlier equal element. -/
def oInsert (le : α → α → Bool) (a : α) : List α → List α
  | [] => [a]
  | b :: l => if le a b then a :: b :: l else b :: oInsert le a l

/-- Stable sort modelling the Python builtin `sorted` (any stable sort computes the
same list for a total transitive comparator). -/
def iSort (le : α → α → Bool) : List α → List α
  | [] => []
  | a :: l => oInsert le a (iSort le l)

/-- Maximum of a list of floats as computed by the Python builtin `max` (the source
only applies it to nonempty lists). -/
def maxQ : List ℚ → ℚ
  | [] => 0
  | x :: xs => xs.foldl max x

/-- The centre used by `rotational_sort`: the coordinate-wise `np.mean` of
the points unless an explicit centre is supplied. -/
def rsAvg (points : List (ℚ × ℚ)) (centre : Option (ℚ × ℚ)) : ℚ × ℚ :=
  match centre with
  | some c => c
  | none => (meanQ (points.map (fun p => p.1)), meanQ (points.map (fun p => p.2)))

/-- The exact angle key of one point: reflected when `x < avg_x`, with the
cosine of the angle between `ref_vect = (0, M)` (where `M = max(ypoints)`)
and `p - avg` encoded as `n / sqrt s`. -/
def rsKey (avg : ℚ × ℚ) (M : ℚ) (p : ℚ × ℚ) : AKey :=
  ⟨decide (p.1 < avg.1), M * (p.2 - avg.2),
   M ^ 2 * ((p.1 - avg.1) ^ 2 + (p.2 - avg.2) ^ 2)⟩

/-- Model of `rotational_sort(points, ids, ccw, centre)`: the angles are
computed per point, then `sorted(zip(angles, points), reverse=ccw)` and
`sorted(zip(angles, ids), reverse=ccw)` are taken independently and the
payloads extracted. -/
def rotational_sort (points : List (ℚ × ℚ)) (ids : List ℤ) (ccw : Bool)
    (centre : Option (ℚ × ℚ)) : List (ℚ × ℚ) × List ℤ :=
  let avg := rsAvg points centre
  let M := maxQ (points.map (fun p => p.2))
  let key := rsKey avg M
  ((iSort (pairLeB ptLeB ccw) (points.map (fun p => (key p, p)))).map (fun t => t.2),
   (iSort (pairLeB idLeB ccw) ((points.zip ids).map (fun pi => (key pi.1, pi.2)))).map
     (fun t => t.2))

/-- The default ids of `rotational_sort`: `list(range(len(points)))`. -/
def rsDefaultIds (points : List (ℚ × ℚ)) : List ℤ :=
  (List.range points.length).map (fun k => (k : ℤ))

/-- Minimum of a list of floats as computed by the Python builtin `min` (the source
only applies it to nonempty lists). -/
def minQ : List ℚ → ℚ
  | [] => 0
  | x :: xs => xs.foldl min x

/-- The finite vertices of one tessellation region, as collected by
`_generate_voronoi`: every vertex index other than the unbounded sentinel
`-1` is looked up in the vertex table. -/
def finiteVerts (vertices : List (ℚ × ℚ)) (regionIdx : List ℤ) : List (ℚ × ℚ) :=
  regionIdx.filterMap (fun r => if r = -1 then none else vertices.get? r.toNat)

/-- The edge-region test of `_generate_voronoi` (lines 329-337): a region
is built as an `EdgeRegion` when some finite vertex coordinate leaves
`[0, xlim] x [0, ylim]` (tested via min/max of the coordinate lists) or
the sentinel `-1` appears in the vertex-index list of the region.  `none`
models the `min`/`max`-of-empty-sequence crash when the region has no
finite vertex. -/
def region_is_edge (vertices : List (ℚ × ℚ)) (regionIdx : List ℤ)
    (xlim ylim : ℚ) : Option Bool :=
  let bounds := finiteVerts vertices regionIdx
  match bounds with
  | [] => none
  | _ :: _ =>
    let xs := bounds.map (fun p => p.1)
    let ys := bounds.map (fun p => p.2)
    some (decide (minQ xs < 0 ∨ minQ ys < 0 ∨ xlim < maxQ xs ∨ ylim < maxQ ys ∨
      (-1 : ℤ) ∈ regionIdx))

attribute [local semireducible] Rat.add Rat.mul Rat.inv Rat.sub

deriving instance DecidableEq for Except

lemma zipWith_add_from_points :
    ∀ (P Q : List ℚ), P.length = Q.length →
      List.zipWith (fun o c => o + c) P ((P.zip Q).map (fun pq => pq.2 - pq.1)) = Q := by
  intro P
  induction P with
  | nil =>
    intro Q h
    cases Q with
    | nil => rfl
    | cons q qs => simp at h
  | cons p ps ih =>
    intro Q h
    cases Q with
    | nil => simp at h
    | cons q qs =>
      simp only [List.zip_cons_cons, List.map_cons, List.zipWith_cons_cons]
      refine congrArg₂ List.cons (by ring) (ih qs (by simpa using h))

/-- C7: for point lists of equal length, `Vector.from_points(P, Q)` succeeds
with origin `P` and endpoint `Q`; for lists of different lengths it raises
the dimension-mismatch ValueError. -/
theorem C7_from_points_endpoints (P Q : List ℚ) :
    (P.length = Q.length →
      ∃ v, from_points P Q = Except.ok v ∧ endpoint v = Q ∧ v.origin = P) ∧
    (P.length ≠ Q.length → from_points P Q = Except.error PyErr.valueError) := by
  constructor
  · intro h
    refine ⟨⟨(P.zip Q).map (fun pq => pq.2 - pq.1), P⟩, ?_, ?_, rfl⟩
    · simp [from_points, h]
    · simpa [endpoint] using zipWith_add_from_points P Q h
  · intro h
    simp [from_points, h]

/-- Witness for C7 at the concrete points of the source test suite plus a
mismatched pair. -/
theorem C7_witness :
    (∃ v, from_points [2, -7, 0] [1, -3, -5] = Except.ok v ∧
      endpoint v = [1, -3, -5] ∧ v.origin = [2, -7, 0]) ∧
    from_points [1, 2] [1] = Except.error PyErr.valueError :=
  ⟨(C7_from_points_endpoints [2, -7, 0] [1, -3, -5]).1 (by decide),
   (C7_from_points_endpoints [1, 2] [1]).2 (by decide)⟩

lemma zip_map_sub :
    ∀ (A B : List ℚ), (A.zip B).map (fun pq => pq.2 - pq.1) =
      List.zipWith (fun b a => b - a) B A := by
  intro A
  induction A with
  | nil => intro B; cases B <;> rfl
  | cons a as ih =>
    intro B
    cases B with
    | nil => rfl
    | cons b bs => simp [List.zip_cons_cons, ih]

/-- C10: `u + v` is the vector from the endpoint of `v` to the origin of
`u`: its origin is `v.endpoint` and its components are componentwise
`u.origin - v.endpoint`; it is neither the componentwise sum of the two
direction vectors nor commutative, as the concrete instances show. -/
theorem C10_add_reversed (u v : PyVec) (hv : v.origin.length = v.components.length)
    (hdim : u.origin.length = v.origin.length) :
    (∃ w, vadd u v = Except.ok w ∧ w.origin = endpoint v ∧
      w.components = List.zipWith (fun a b => a - b) u.origin (endpoint v)) ∧
    vadd ⟨[1, 2], [0, 0]⟩ ⟨[10, 20], [0, 0]⟩ = Except.ok ⟨[-10, -20], [10, 20]⟩ ∧
    vadd ⟨[10, 20], [0, 0]⟩ ⟨[1, 2], [0, 0]⟩ = Except.ok ⟨[-1, -2], [1, 2]⟩ ∧
    List.zipWith (fun a b => a + b) ([1, 2] : List ℚ) [10, 20] = [11, 22] := by
  refine ⟨?_, by decide, by decide, by decide⟩
  have hlen : (endpoint v).length = u.origin.length := by
    simp only [endpoint, List.length_zipWith]
    omega
  refine ⟨⟨((endpoint v).zip u.origin).map (fun pq => pq.2 - pq.1), endpoint v⟩, ?_, rfl, ?_⟩
  · simp [vadd, from_points, hlen]
  · exact zip_map_sub _ _

/-- Witness for C10 at concrete equal-dimension vectors. -/
theorem C10_witness :
    ∃ w, vadd ⟨[1, 2], [3, 4]⟩ ⟨[10, 20], [0, 0]⟩ = Except.ok w ∧
      w.origin = endpoint ⟨[10, 20], [0, 0]⟩ ∧
      w.components = List.zipWith (fun a b => a - b) ([3, 4] : List ℚ)
        (endpoint ⟨[10, 20], [0, 0]⟩) :=
  (C10_add_reversed ⟨[1, 2], [3, 4]⟩ ⟨[10, 20], [0, 0]⟩ (by decide) (by decide)).1

/-- C9: for a region with a nonempty point list, evaluating the centroid
property appends the first point to the stored point list in place, so the
stored list is one element longer after every centroid query. -/
theorem C9_centroid_mutates (r : Region) (p0 : ℚ × ℚ) (tl : List (ℚ × ℚ))
    (h : r.points = p0 :: tl) :
    (centroid r).2.points = r.points ++ [p0] ∧
    (centroid r).2.points.length = r.points.length + 1 := by
  rcases r with ⟨o, pts, i, ac⟩
  simp only at h
  subst h
  have h1 : (centroid ⟨o, p0 :: tl, i, ac⟩).2.points = (p0 :: tl) ++ [p0] := by
    simp only [centroid]
    split <;> rfl
  exact ⟨h1, by rw [h1]; simp⟩

/-- Witness for C9 at the unit-square region. -/
theorem C9_witness :
    (centroid ⟨(1, 1), [(0, 0), (1, 0), (1, 1), (0, 1)], 1, none⟩).2.points =
      [(0, 0), (1, 0), (1, 1), (0, 1)] ++ [(0, 0)] ∧
    (centroid ⟨(1, 1), [(0, 0), (1, 0), (1, 1), (0, 1)], 1, none⟩).2.points.length =
      ([(0, 0), (1, 0), (1, 1), (0, 1)] : List (ℚ × ℚ)).length + 1 :=
  C9_centroid_mutates ⟨(1, 1), [(0, 0), (1, 0), (1, 1), (0, 1)], 1, none⟩ (0, 0)
    [(1, 0), (1, 1), (0, 1)] rfl

/-- C4 fails as stated: for the collinear region [(0,0), (1,1), (2,2)] the
signed shoelace area is zero, and the degenerate fallback returns
(3/4, 3/4), the mean taken after the wrap-around first point was appended,
not the mean (1, 1) of the three points the region holds. -/
theorem C4_counterexample :
    ((shoelaceAcc ([(0, 0), (1, 1), (2, 2)] ++ [((0 : ℚ), (0 : ℚ))])).1 / 2 = 0) ∧
    (centroid ⟨(0, 0), [(0, 0), (1, 1), (2, 2)], 0, none⟩).1 = some (3 / 4, 3 / 4) ∧
    meanQ ([(0, 0), (1, 1), (2, 2)].map (fun p : ℚ × ℚ => p.1)) = 1 ∧
    (centroid ⟨(0, 0), [(0, 0), (1, 1), (2, 2)], 0, none⟩).1 ≠
      some (meanQ ([(0, 0), (1, 1), (2, 2)].map (fun p : ℚ × ℚ => p.1)),
            meanQ ([(0, 0), (1, 1), (2, 2)].map (fun p : ℚ × ℚ => p.2))) :=
  ⟨by decide, by decide, by decide, by decide⟩

/-- C4 amended: when the signed shoelace area accumulates to exactly zero,
the centroid is the coordinatewise mean of the point list with the
wrap-around first point appended, i.e. the mean over n+1 values in which
the first point is counted twice. -/
theorem C4_amended_degenerate_mean (r : Region) (p0 : ℚ × ℚ) (tl : List (ℚ × ℚ))
    (h : r.points = p0 :: tl)
    (hA : (shoelaceAcc (r.points ++ [p0])).1 / 2 = 0) :
    (centroid r).1 = some
      (((r.points.map (fun p => p.1)).sum + p0.1) / ((r.points.length : ℚ) + 1),
       ((r.points.map (fun p => p.2)).sum + p0.2) / ((r.points.length : ℚ) + 1)) := by
  rcases r with ⟨o, pts, i, ac⟩
  simp only at h hA
  subst h
  simp only [centroid, hA, if_pos]
  have hx : meanQ (((p0 :: tl) ++ [p0]).map (fun p => p.1)) =
      (((p0 :: tl).map (fun p : ℚ × ℚ => p.1)).sum + p0.1) /
        (((p0 :: tl).length : ℚ) + 1) := by
    simp [meanQ, List.sum_append]
    ring_nf
  have hy : meanQ (((p0 :: tl) ++ [p0]).map (fun p => p.2)) =
      (((p0 :: tl).map (fun p : ℚ × ℚ => p.2)).sum + p0.2) /
        (((p0 :: tl).length : ℚ) + 1) := by
    simp [meanQ, List.sum_append]
    ring_nf
  rw [hx, hy]

/-- Witness for C4 amended at the collinear region. -/
theorem C4_amended_witness :
    (centroid ⟨(0, 0), [(0, 0), (1, 1), (2, 2)], 0, none⟩).1 = some
      ((([((0 : ℚ), (0 : ℚ)), (1, 1), (2, 2)].map (fun p => p.1)).sum + 0) /
        ((([((0 : ℚ), (0 : ℚ)), (1, 1), (2, 2)] : List (ℚ × ℚ)).length : ℚ) + 1),
       (([((0 : ℚ), (0 : ℚ)), (1, 1), (2, 2)].map (fun p => p.2)).sum + 0) /
        ((([((0 : ℚ), (0 : ℚ)), (1, 1), (2, 2)] : List (ℚ × ℚ)).length : ℚ) + 1)) :=
  C4_amended_degenerate_mean ⟨(0, 0), [(0, 0), (1, 1), (2, 2)], 0, none⟩ (0, 0)
    [(1, 1), (2, 2)] rfl (by decide)

/-- C3 fails on the code: with no cached area, querying `area` evaluates
the centroid property and then calls its tuple result, raising TypeError,
even though the centroid of the unit square is computable, equals
(1/2, 1/2), and a direct centroid query would cache area 1. -/
theorem C3_area_always_raises :
    area ⟨(1, 1), [(0, 0), (1, 0), (1, 1), (0, 1)], 1, none⟩ =
      Except.error PyErr.typeError ∧
    (centroid ⟨(1, 1), [(0, 0), (1, 0), (1, 1), (0, 1)], 1, none⟩).1 =
      some (1 / 2, 1 / 2) ∧
    (centroid ⟨(1, 1), [(0, 0), (1, 0), (1, 1), (0, 1)], 1, none⟩).2.areaCache = some 1 :=
  ⟨by decide, by decide, by decide⟩

/-- C1 fails on the code: relaxing the region list [empty, unit square]
removes the empty region while iterating, which skips the unit-square
region entirely; the square region survives with computable centroid
(1/2, 1/2), yet the new generator point list is empty instead of
containing that centroid. -/
theorem C1_lloyds_relax_skips_region :
    lloyds_relax [⟨(0, 0), [], 0, none⟩,
        ⟨(1, 1), [(0, 0), (1, 0), (1, 1), (0, 1)], 1, none⟩] =
      ([⟨(1, 1), [(0, 0), (1, 0), (1, 1), (0, 1)], 1, none⟩], []) ∧
    (centroid ⟨(1, 1), [(0, 0), (1, 0), (1, 1), (0, 1)], 1, none⟩).1 =
      some (1 / 2, 1 / 2) := by
  constructor
  · unfold lloyds_relax
    rw [lloyds_go]
    norm_num [centroid]
    rw [lloyds_go]
    norm_num
  · decide

lemma intersect_boundary_axis0 (o0 o1 c0 c1 val : ℚ) (he : o1 + c1 ≠ 0) :
    intersect_boundary ⟨[c0, c1], [o0, o1]⟩ 0 val =
      if c0 = 0 then Except.error PyErr.valueError
      else Except.ok [val, o1 + c1 * (val - o0) / c0] := by
  have h65 : (6 : ℚ) / 5 ≠ 0 := by norm_num
  have he2 : (o1 + c1) * (6 / 5) ≠ 0 := mul_ne_zero he h65
  have hpar : is_parallel ⟨[c0, c1], [o0, o1]⟩ ⟨[0, (o1 + c1) * (6 / 5)], [val, 0]⟩ =
      Except.ok (decide (c0 = 0)) := by
    simp only [is_parallel]
    norm_num [he2]
    exact eq_comm
  simp only [intersect_boundary, endpoint]
  norm_num
  rw [hpar]
  by_cases hc : c0 = 0
  · simp [hc]
  · simp [hc]
    field_simp
    ring

lemma intersect_boundary_axis1 (o0 o1 c0 c1 val : ℚ) (he : o0 + c0 ≠ 0) :
    intersect_boundary ⟨[c0, c1], [o0, o1]⟩ 1 val =
      if c1 = 0 then Except.error PyErr.valueError
      else Except.ok [o0 + c0 * (val - o1) / c1, val] := by
  have h65 : (6 : ℚ) / 5 ≠ 0 := by norm_num
  have he2 : (o0 + c0) * (6 / 5) ≠ 0 := mul_ne_zero he h65
  have hpar : is_parallel ⟨[c0, c1], [o0, o1]⟩ ⟨[(o0 + c0) * (6 / 5), 0], [0, val]⟩ =
      Except.ok (decide (c1 = 0)) := by
    simp only [is_parallel]
    norm_num [he2]
    exact eq_comm
  simp only [intersect_boundary, endpoint]
  norm_num
  rw [hpar]
  by_cases hc : c1 = 0
  · simp [hc]
  · simp [hc]
    rw [div_eq_iff (neg_ne_zero.mpr hc)]
    field_simp
    ring

/-- C6 fails as stated: the horizontal 2D vector with components (1, 0)
anchored at the origin is not parallel to the boundary line x = 5, yet
querying that boundary raises ZeroDivisionError (its endpoint has
y-coordinate 0, which the parallel test divides by); likewise the
vertical vector (0, 1) anchored at (0, -1) is exactly parallel to x = 5
but raises ZeroDivisionError instead of the parallel-to-axis error. -/
theorem C6_counterexample :
    intersect_boundary ⟨[1, 0], [0, 0]⟩ 0 5 = Except.error PyErr.zeroDivision ∧
    (⟨[1, 0], [0, 0]⟩ : PyVec).components.head? ≠ some 0 ∧
    intersect_boundary ⟨[0, 1], [0, -1]⟩ 0 5 = Except.error PyErr.zeroDivision ∧
    (⟨[0, 1], [0, -1]⟩ : PyVec).components.head? = some 0 :=
  ⟨by decide, by decide, by decide, by decide⟩

/-- C6 amended: provided the endpoint coordinate on the non-queried axis
is nonzero, a 2D vector exactly parallel to the queried boundary line
(zero direction component on the queried axis) raises the
parallel-to-axis ValueError, and a non-parallel vector returns the point
whose coordinate on the queried axis is exactly the requested value; when
that endpoint coordinate is zero, ZeroDivisionError is raised instead. -/
theorem C6_amended_parallel_or_exact (o0 o1 c0 c1 val : ℚ) :
    (o1 + c1 ≠ 0 →
      (c0 = 0 →
        intersect_boundary ⟨[c0, c1], [o0, o1]⟩ 0 val = Except.error PyErr.valueError) ∧
      (c0 ≠ 0 →
        intersect_boundary ⟨[c0, c1], [o0, o1]⟩ 0 val =
          Except.ok [val, o1 + c1 * (val - o0) / c0])) ∧
    (o0 + c0 ≠ 0 →
      (c1 = 0 →
        intersect_boundary ⟨[c0, c1], [o0, o1]⟩ 1 val = Except.error PyErr.valueError) ∧
      (c1 ≠ 0 →
        intersect_boundary ⟨[c0, c1], [o0, o1]⟩ 1 val =
          Except.ok [o0 + c0 * (val - o1) / c1, val])) ∧
    (o1 + c1 = 0 →
      intersect_boundary ⟨[c0, c1], [o0, o1]⟩ 0 val = Except.error PyErr.zeroDivision) := by
  refine ⟨?_, ?_, ?_⟩
  · intro he
    rw [intersect_boundary_axis0 o0 o1 c0 c1 val he]
    exact ⟨fun h => by simp [h], fun h => by simp [h]⟩
  · intro he
    rw [intersect_boundary_axis1 o0 o1 c0 c1 val he]
    exact ⟨fun h => by simp [h], fun h => by simp [h]⟩
  · intro he
    simp only [intersect_boundary, endpoint, is_parallel]
    norm_num [he]

/-- Witness for C6 amended: a generic non-parallel query, a parallel
query, and a zero-endpoint query at concrete inputs. -/
theorem C6_witness :
    intersect_boundary ⟨[1, 2], [1, 1]⟩ 0 5 = Except.ok [5, 1 + 2 * (5 - 1) / 1] ∧
    intersect_boundary ⟨[1, 0], [2, 3]⟩ 1 7 = Except.error PyErr.valueError ∧
    intersect_boundary ⟨[1, -3], [0, 3]⟩ 0 4 = Except.error PyErr.zeroDivision :=
  ⟨((C6_amended_parallel_or_exact 1 1 1 2 5).1 (by norm_num)).2 (by norm_num),
   ((C6_amended_parallel_or_exact 2 3 1 0 7).2.1 (by norm_num)).1 rfl,
   (C6_amended_parallel_or_exact 0 3 1 (-3) 4).2.2 (by norm_num)⟩

lemma gather_go_ok (outer : PyVec) :
    ∀ bs : List (Nat × ℚ),
      (∀ b ∈ bs, ∀ e, intersect_boundary outer b.1 b.2 = Except.error e →
        e = PyErr.linAlgError) →
      gather_go outer bs =
        Except.ok (bs.filterMap (fun b => (intersect_boundary outer b.1 b.2).toOption)) := by
  intro bs
  induction bs with
  | nil => intro _; rfl
  | cons b rest ih =>
    intro h
    have hrest := ih (fun x hx e he => h x (List.mem_cons_of_mem _ hx) e he)
    cases hres : intersect_boundary outer b.1 b.2 with
    | ok p => simp [gather_go, hres, hrest, Except.toOption, List.filterMap_cons]
    | error e =>
      have heq : e = PyErr.linAlgError := h b (List.mem_cons_self _ _) e hres
      subst heq
      simp [gather_go, hres, hrest, Except.toOption, List.filterMap_cons]

/-- C2 fails as stated: for the outward vector with components
(0, -10, 0) anchored at the midpoint (5, 10) — as built for the adjacent
generator pair (10, 10), (0, 10) — the very first boundary query x = 0
fails with ZeroDivisionError, which is not caught, so construction aborts
even though the y = 0 and y = ylim boundaries still produce candidate
intersections. -/
theorem C2_counterexample :
    gather_intersects ⟨[0, -10, 0], [5, 10]⟩ 10 10 = Except.error PyErr.zeroDivision ∧
    intersect_boundary ⟨[0, -10, 0], [5, 10]⟩ 1 0 = Except.ok [5, 0] ∧
    intersect_boundary ⟨[0, -10, 0], [5, 10]⟩ 1 10 = Except.ok [5, 10] :=
  ⟨by decide, by decide, by decide⟩

/-- C2 amended: when every failing boundary query fails with the
singular-system LinAlgError, each failure is discarded and the remaining
candidates are collected in order; failures of any other kind propagate
and abort construction (as the counterexample shows). -/
theorem C2_amended_discard_linalg (outer : PyVec) (xlim ylim : ℚ)
    (h : ∀ b ∈ clip_bounds xlim ylim, ∀ e,
      intersect_boundary outer b.1 b.2 = Except.error e → e = PyErr.linAlgError) :
    gather_intersects outer xlim ylim =
      Except.ok ((clip_bounds xlim ylim).filterMap
        (fun b => (intersect_boundary outer b.1 b.2).toOption)) :=
  gather_go_ok outer _ h

/-- Witness for C2 amended: an outward vector for which all four boundary
queries succeed. -/
theorem C2_witness :
    gather_intersects ⟨[3, 4], [5, 5]⟩ 10 10 =
      Except.ok ((clip_bounds 10 10).filterMap
        (fun b => (intersect_boundary ⟨[3, 4], [5, 5]⟩ b.1 b.2).toOption)) :=
  C2_amended_discard_linalg ⟨[3, 4], [5, 5]⟩ 10 10 (by
    intro b hb
    fin_cases hb <;> decide)

lemma foldl_min_lt (c : ℚ) :
    ∀ (xs : List ℚ) (x : ℚ), xs.foldl min x < c ↔ x < c ∨ ∃ y ∈ xs, y < c := by
  intro xs
  induction xs with
  | nil => intro x; simp
  | cons y ys ih =>
    intro x
    rw [List.foldl_cons, ih]
    simp [min_lt_iff]
    tauto

lemma lt_foldl_max (c : ℚ) :
    ∀ (xs : List ℚ) (x : ℚ), c < xs.foldl max x ↔ c < x ∨ ∃ y ∈ xs, c < y := by
  intro xs
  induction xs with
  | nil => intro x; simp
  | cons y ys ih =>
    intro x
    rw [List.foldl_cons, ih]
    simp [lt_max_iff]
    tauto

lemma minQ_lt (l : List ℚ) (hl : l ≠ []) (c : ℚ) :
    minQ l < c ↔ ∃ y ∈ l, y < c := by
  cases l with
  | nil => exact absurd rfl hl
  | cons x xs =>
    rw [minQ, foldl_min_lt]
    simp

lemma maxQ_gt (l : List ℚ) (hl : l ≠ []) (c : ℚ) :
    c < maxQ l ↔ ∃ y ∈ l, c < y := by
  cases l with
  | nil => exact absurd rfl hl
  | cons x xs =>
    rw [maxQ, lt_foldl_max]
    simp

/-- C8: a region is classified as an edge region exactly when some finite
vertex of its region leaves the closed rectangle [0, xlim] x [0, ylim] or
the tessellation output contains the unbounded sentinel -1 for that
region (given at least one finite vertex, so the min/max reductions are
defined, and index validity as guaranteed by the tessellation). -/
theorem C8_edge_classification (vertices : List (ℚ × ℚ)) (regionIdx : List ℤ)
    (xlim ylim : ℚ)
    (hvalid : ∀ r ∈ regionIdx, r = -1 ∨ (0 ≤ r ∧ r.toNat < vertices.length))
    (hne : finiteVerts vertices regionIdx ≠ []) :
    (region_is_edge vertices regionIdx xlim ylim = some true ↔
      ((∃ p ∈ finiteVerts vertices regionIdx,
        p.1 < 0 ∨ xlim < p.1 ∨ p.2 < 0 ∨ ylim < p.2) ∨ (-1 : ℤ) ∈ regionIdx)) ∧
    region_is_edge vertices regionIdx xlim ylim ≠ none := by
  have hxs : (finiteVerts vertices regionIdx).map (fun p => p.1) ≠ [] := by
    simpa using hne
  have hys : (finiteVerts vertices regionIdx).map (fun p => p.2) ≠ [] := by
    simpa using hne
  cases hb : finiteVerts vertices regionIdx with
  | nil => exact absurd hb hne
  | cons v vs =>
    rw [hb] at hxs hys
    constructor
    · rw [region_is_edge, hb]
      simp only [Option.some.injEq, decide_eq_true_eq]
      rw [← hb, minQ_lt _ (hb ▸ hxs) 0, minQ_lt _ (hb ▸ hys) 0,
        maxQ_gt _ (hb ▸ hxs) xlim, maxQ_gt _ (hb ▸ hys) ylim]
      simp only [List.mem_map]
      constructor
      · rintro (⟨x, ⟨p, hp, rfl⟩, hx⟩ | ⟨y, ⟨p, hp, rfl⟩, hy⟩ |
          ⟨x, ⟨p, hp, rfl⟩, hx⟩ | ⟨y, ⟨p, hp, rfl⟩, hy⟩ | hm)
        · exact Or.inl ⟨p, hp, Or.inl hx⟩
        · exact Or.inl ⟨p, hp, Or.inr (Or.inr (Or.inl hy))⟩
        · exact Or.inl ⟨p, hp, Or.inr (Or.inl hx)⟩
        · exact Or.inl ⟨p, hp, Or.inr (Or.inr (Or.inr hy))⟩
        · exact Or.inr hm
      · rintro (⟨p, hp, (h1 | h2 | h3 | h4)⟩ | hm)
        · exact Or.inl ⟨p.1, ⟨p, hp, rfl⟩, h1⟩
        · exact Or.inr (Or.inr (Or.inl ⟨p.1, ⟨p, hp, rfl⟩, h2⟩))
        · exact Or.inr (Or.inl ⟨p.2, ⟨p, hp, rfl⟩, h3⟩)
        · exact Or.inr (Or.inr (Or.inr (Or.inl ⟨p.2, ⟨p, hp, rfl⟩, h4⟩)))
        · exact Or.inr (Or.inr (Or.inr (Or.inr hm)))
    · rw [region_is_edge, hb]
      simp

/-- Witness for C8 at a concrete region with one vertex outside the
domain. -/
theorem C8_witness :
    (∀ r ∈ ([0, 1] : List ℤ), r = -1 ∨ (0 ≤ r ∧ r.toNat < ([(5, 5), (-1, 3)] : List (ℚ × ℚ)).length)) ∧
    finiteVerts [(5, 5), (-1, 3)] [0, 1] ≠ [] ∧
    (region_is_edge [(5, 5), (-1, 3)] [0, 1] 10 10 = some true ↔
      ((∃ p ∈ finiteVerts [(5, 5), (-1, 3)] [0, 1],
        p.1 < 0 ∨ (10 : ℚ) < p.1 ∨ p.2 < 0 ∨ (10 : ℚ) < p.2) ∨ (-1 : ℤ) ∈ ([0, 1] : List ℤ))) :=
  ⟨by decide, by decide,
   (C8_edge_classification [(5, 5), (-1, 3)] [0, 1] 10 10 (by decide) (by decide)).1⟩

section SortLemmas

variable {α : Type} {β : Type}

lemma mem_oInsert {le : α → α → Bool} {a x : α} :
    ∀ {l : List α}, x ∈ oInsert le a l ↔ x = a ∨ x ∈ l := by
  intro l
  induction l with
  | nil => simp [oInsert]
  | cons b t ih =>
    by_cases hab : le a b
    · simp [oInsert, hab, List.mem_cons]
    · simp only [oInsert, hab, Bool.false_eq_true, if_false, List.mem_cons, ih]
      tauto

lemma oInsert_perm (le : α → α → Bool) (a : α) :
    ∀ (l : List α), (oInsert le a l).Perm (a :: l) := by
  intro l
  induction l with
  | nil => exact List.Perm.refl _
  | cons b t ih =>
    by_cases hab : le a b
    · simp only [oInsert, hab, if_true]
      exact List.Perm.refl _
    · simp only [oInsert, hab, Bool.false_eq_true, if_false]
      exact (ih.cons b).trans (List.Perm.swap a b t)

lemma iSort_perm (le : α → α → Bool) : ∀ (l : List α), (iSort le l).Perm l := by
  intro l
  induction l with
  | nil => exact List.Perm.refl _
  | cons a t ih => exact (oInsert_perm le a (iSort le t)).trans (ih.cons a)

lemma oInsert_congr {le1 le2 : α → α → Bool} (a : α) :
    ∀ (l : List α), (∀ x ∈ l, le1 a x = le2 a x) → oInsert le1 a l = oInsert le2 a l := by
  intro l
  induction l with
  | nil => intro _; rfl
  | cons b t ih =>
    intro h
    have hb := h b (List.mem_cons_self _ _)
    simp only [oInsert, hb]
    by_cases h2 : le2 a b
    · simp [h2]
    · simp only [h2, Bool.false_eq_true, if_false]
      rw [ih (fun x hx => h x (List.mem_cons_of_mem _ hx))]

lemma iSort_congr {le1 le2 : α → α → Bool} :
    ∀ (l : List α), (∀ x ∈ l, ∀ y ∈ l, le1 x y = le2 x y) → iSort le1 l = iSort le2 l := by
  intro l
  induction l with
  | nil => intro _; rfl
  | cons a t ih =>
    intro h
    have ht : iSort le1 t = iSort le2 t :=
      ih (fun x hx y hy => h x (List.mem_cons_of_mem _ hx) y (List.mem_cons_of_mem _ hy))
    simp only [iSort, ht]
    refine oInsert_congr a (iSort le2 t) (fun x hx => ?_)
    have hxt : x ∈ t := ((iSort_perm le2 t).mem_iff).1 hx
    exact h a (List.mem_cons_self _ _) x (List.mem_cons_of_mem _ hxt)

lemma oInsert_map (f : β → α) (le : α → α → Bool) (a : β) :
    ∀ (l : List β), oInsert le (f a) (l.map f) =
      (oInsert (fun x y => le (f x) (f y)) a l).map f := by
  intro l
  induction l with
  | nil => rfl
  | cons b t ih =>
    by_cases hab : le (f a) (f b)
    · simp [oInsert, hab]
    · simp only [List.map_cons, oInsert, hab, Bool.false_eq_true, if_false, ih]

lemma iSort_map (f : β → α) (le : α → α → Bool) :
    ∀ (l : List β), iSort le (l.map f) = (iSort (fun x y => le (f x) (f y)) l).map f := by
  intro l
  induction l with
  | nil => rfl
  | cons a t ih => simp only [List.map_cons, iSort, ih, oInsert_map]

lemma pairwise_oInsert {le : α → α → Bool} {a : α} :
    ∀ {l : List α}, l.Pairwise (fun x y => le x y = true) →
      (∀ x ∈ l, le a x = true ∨ le x a = true) →
      (∀ x ∈ l, ∀ y ∈ l, le a x = true → le x y = true → le a y = true) →
      (oInsert le a l).Pairwise (fun x y => le x y = true) := by
  intro l
  induction l with
  | nil => intro _ _ _; simp [oInsert]
  | cons b t ih =>
    intro hl htot htrans
    by_cases hab : le a b
    · simp only [oInsert, hab, if_true]
      refine List.Pairwise.cons ?_ hl
      intro x hx
      rcases List.mem_cons.1 hx with rfl | hxt
      · exact hab
      · exact htrans b (List.mem_cons_self _ _) x (List.mem_cons_of_mem _ hxt) hab
          (List.rel_of_pairwise_cons hl hxt)
    · simp only [oInsert, hab, Bool.false_eq_true, if_false]
      refine List.Pairwise.cons ?_ ?_
      · intro x hx
        rcases mem_oInsert.1 hx with rfl | hxt
        · rcases htot b (List.mem_cons_self _ _) with h | h
          · exact absurd h hab
          · exact h
        · exact List.rel_of_pairwise_cons hl hxt
      · exact ih hl.of_cons
          (fun x hx => htot x (List.mem_cons_of_mem _ hx))
          (fun x hx y hy hax hxy =>
            htrans x (List.mem_cons_of_mem _ hx) y (List.mem_cons_of_mem _ hy) hax hxy)

lemma pairwise_iSort {le : α → α → Bool} :
    ∀ {l : List α}, (∀ x ∈ l, ∀ y ∈ l, le x y = true ∨ le y x = true) →
      (∀ x ∈ l, ∀ y ∈ l, ∀ z ∈ l, le x y = true → le y z = true → le x z = true) →
      (iSort le l).Pairwise (fun x y => le x y = true) := by
  intro l
  induction l with
  | nil => intro _ _; simp [iSort]
  | cons a t ih =>
    intro htot htrans
    have hmem : ∀ x ∈ iSort le t, x ∈ t := fun x hx => ((iSort_perm le t).mem_iff).1 hx
    refine pairwise_oInsert
      (ih (fun x hx y hy => htot x (List.mem_cons_of_mem _ hx) y (List.mem_cons_of_mem _ hy))
        (fun x hx y hy z hz => htrans x (List.mem_cons_of_mem _ hx)
          y (List.mem_cons_of_mem _ hy) z (List.mem_cons_of_mem _ hz)))
      (fun x hx => htot a (List.mem_cons_self _ _) (x) (List.mem_cons_of_mem _ (hmem x hx)))
      (fun x hx y hy hax hxy => htrans a (List.mem_cons_self _ _)
        x (List.mem_cons_of_mem _ (hmem x hx)) y (List.mem_cons_of_mem _ (hmem y hy)) hax hxy)

end SortLemmas

section AKeyOrder

lemma cosLtB_iff {a b : AKey} :
    cosLtB a b = true ↔ ((a.n < 0 ∧ 0 ≤ b.n) ∨
      (0 ≤ a.n ∧ 0 ≤ b.n ∧ a.n ^ 2 * b.s < b.n ^ 2 * a.s) ∨
      (a.n < 0 ∧ b.n < 0 ∧ b.n ^ 2 * a.s < a.n ^ 2 * b.s)) := by
  simp [cosLtB]

lemma cosLtB_asymm {a b : AKey} (h : cosLtB a b = true) : cosLtB b a = false := by
  rw [cosLtB_iff] at h
  rw [← Bool.not_eq_true, cosLtB_iff]
  rcases h with ⟨h1, h2⟩ | ⟨h1, h2, h3⟩ | ⟨h1, h2, h3⟩ <;>
    rintro (⟨g1, g2⟩ | ⟨g1, g2, g3⟩ | ⟨g1, g2, g3⟩) <;> linarith

lemma cosLtB_trans {a b c : AKey} (ha : a.valid) (hb : b.valid) (hc : c.valid)
    (h1 : cosLtB a b = true) (h2 : cosLtB b c = true) : cosLtB a c = true := by
  obtain ⟨has, _⟩ := ha
  obtain ⟨hbs, _⟩ := hb
  obtain ⟨hcs, _⟩ := hc
  rw [cosLtB_iff] at h1 h2 ⊢
  rcases h1 with ⟨h11, h12⟩ | ⟨h11, h12, h13⟩ | ⟨h11, h12, h13⟩ <;>
    rcases h2 with ⟨h21, h22⟩ | ⟨h21, h22, h23⟩ | ⟨h21, h22, h23⟩
  · linarith
  · exact Or.inl ⟨h11, h22⟩
  · linarith
  · linarith
  · refine Or.inr (Or.inl ⟨h11, h22, ?_⟩)
    rcases lt_or_eq_of_le h12 with hbn | hbn
    · nlinarith [mul_lt_mul_of_pos_right h13 hcs, mul_lt_mul_of_pos_right h23 has,
        mul_pos (mul_pos hbn hbn) hbs]
    · nlinarith [mul_pos has hcs]
  · linarith
  · exact Or.inl ⟨h11, h22⟩
  · linarith
  · refine Or.inr (Or.inr ⟨h11, h22, ?_⟩)
    nlinarith [mul_lt_mul_of_pos_right h13 hcs, mul_lt_mul_of_pos_right h23 has,
      mul_pos (mul_pos (neg_pos.mpr h12) (neg_pos.mpr h12)) hbs]

lemma cosLtB_neg1_bot {a b : AKey} (ha : a.valid) (hb : b.valid)
    (hn : neg1B a = true) : cosLtB b a = false := by
  rw [← Bool.not_eq_true, cosLtB_iff]
  rw [neg1B, decide_eq_true_eq] at hn
  obtain ⟨han, hne⟩ := hn
  obtain ⟨has, _⟩ := ha
  obtain ⟨hbs, hbn2⟩ := hb
  rintro (⟨g1, g2⟩ | ⟨g1, g2, g3⟩ | ⟨g1, g2, g3⟩)
  · linarith
  · linarith
  · nlinarith [mul_le_mul_of_nonneg_right hbn2 (le_of_lt has)]

lemma angleLtB_irrefl {a : AKey} : angleLtB a a = false := by
  have hcos : cosLtB a a = false := by
    rw [← Bool.not_eq_true, cosLtB_iff]
    rintro (⟨g1, g2⟩ | ⟨g1, g2, g3⟩ | ⟨g1, g2, g3⟩) <;> linarith
  cases hr : a.refl <;> simp [angleLtB, hr, hcos]

lemma angleLtB_asymm {a b : AKey} (h : angleLtB a b = true) : angleLtB b a = false := by
  cases hra : a.refl <;> cases hrb : b.refl <;>
    simp only [angleLtB, hra, hrb, if_true, if_false, Bool.false_eq_true] at h ⊢
  · exact cosLtB_asymm h
  · exact cosLtB_asymm h

lemma angleLtB_trans {a b c : AKey} (ha : a.valid) (hb : b.valid) (hc : c.valid)
    (h1 : angleLtB a b = true) (h2 : angleLtB b c = true) : angleLtB a c = true := by
  cases hra : a.refl <;> cases hrb : b.refl <;> cases hrc : c.refl <;>
    simp only [angleLtB, hra, hrb, hrc, if_true, if_false, Bool.false_eq_true,
      Bool.not_and, Bool.not_eq_true', Bool.or_eq_true, Bool.not_eq_true] at h1 h2 ⊢
  · -- both unreflected, c unreflected: transitivity of the cosine order
    exact cosLtB_trans hc hb ha h2 h1
  · -- a, b unreflected, c reflected: a cannot have cosine -1
    cases hna : neg1B a with
    | false => exact Or.inl rfl
    | true => exact absurd h1 (by simp [cosLtB_neg1_bot ha hb hna])
  · -- a unreflected, b, c reflected: c cannot have cosine -1
    cases hnc : neg1B c with
    | false => exact Or.inr rfl
    | true => exact absurd h2 (by simp [cosLtB_neg1_bot hc hb hnc])
  · -- all reflected: transitivity of the cosine order
    exact cosLtB_trans ha hb hc h1 h2

end AKeyOrder

lemma zip_tag_proj1 {α β γ : Type} (f : α → γ) :
    ∀ (l1 : List α) (l2 : List β), l2.length = l1.length →
      (((l1.zip l2).map (fun pi => (f pi.1, pi))).map (fun t => (t.1, t.2.1))) =
        l1.map (fun p => (f p, p)) := by
  intro l1
  induction l1 with
  | nil =>
    intro l2 h
    cases l2 with
    | nil => rfl
    | cons b s => simp at h
  | cons a t ih =>
    intro l2 h
    cases l2 with
    | nil => simp at h
    | cons b s =>
      simp only [List.zip_cons_cons, List.map_cons]
      rw [ih s (by simpa using h)]

lemma zip_tag_keys {α β γ : Type} (f : α → γ) :
    ∀ (l1 : List α) (l2 : List β), l2.length = l1.length →
      (((l1.zip l2).map (fun pi => (f pi.1, pi))).map (fun t => t.1)) = l1.map f := by
  intro l1
  induction l1 with
  | nil =>
    intro l2 h
    cases l2 with
    | nil => rfl
    | cons b s => simp at h
  | cons a t ih =>
    intro l2 h
    cases l2 with
    | nil => simp at h
    | cons b s =>
      simp only [List.zip_cons_cons, List.map_cons]
      rw [ih s (by simpa using h)]

/-- C5 fails as stated: sorting the points [(5,8), (5,6), (5,1)] with the
default ids, the first two points have the identical computed angle 0 (both
lie straight above the centre (5,5)), Python breaks the tie in the point
sort by point value and in the id sort by id value, and the returned
pairing is broken: the point (5,6) (originally id 1) is returned at index
0 while the returned id at index 0 is 0. -/
theorem C5_counterexample :
    rotational_sort [(5, 8), (5, 6), (5, 1)] [0, 1, 2] false none =
      ([(5, 6), (5, 8), (5, 1)], [0, 1, 2]) ∧
    rsDefaultIds [(5, 8), (5, 6), (5, 1)] = [0, 1, 2] ∧
    ¬ ((rotational_sort [(5, 8), (5, 6), (5, 1)] [0, 1, 2] false none).1.zip
        (rotational_sort [(5, 8), (5, 6), (5, 1)] [0, 1, 2] false none).2).Perm
      ([(5, 8), (5, 6), (5, 1)].zip [0, 1, 2]) :=
  ⟨by decide, by decide, by decide⟩

/-- The comparator actually applied to the tagged triples when sorting the
points list: compare by angle key, tie-break by point value. -/
def leP (ccw : Bool) (x y : AKey × ((ℚ × ℚ) × ℤ)) : Bool :=
  pairLeB ptLeB ccw (x.1, x.2.1) (y.1, y.2.1)

/-- The comparator actually applied to the tagged triples when sorting the
ids list: compare by angle key, tie-break by id value. -/
def leI (ccw : Bool) (x y : AKey × ((ℚ × ℚ) × ℤ)) : Bool :=
  pairLeB idLeB ccw (x.1, x.2.2) (y.1, y.2.2)

/-- C5 amended: when the reference magnitude is nonzero, every point is
distinct from the centre, and the computed angles are pairwise strictly
comparable (no ties), `rotational_sort` returns the points sorted by angle
(ascending for the default, descending for ccw) with the ids reordered by
the identical permutation: the zipped output pairs are a permutation of
the zipped input pairs.  With tied angles the two output lists are
tie-broken independently (by point value and by id value), and the
pairing can break, as the counterexample shows. -/
theorem C5_amended_pairing (points : List (ℚ × ℚ)) (ids : List ℤ) (ccw : Bool)
    (centre : Option (ℚ × ℚ))
    (hlen : ids.length = points.length)
    (hM : maxQ (points.map (fun p => p.2)) ≠ 0)
    (hctr : ∀ p ∈ points, p ≠ rsAvg points centre)
    (hcmp : (points.map (rsKey (rsAvg points centre)
        (maxQ (points.map (fun p => p.2))))).Pairwise
      (fun a b => angleLtB a b = true ∨ angleLtB b a = true)) :
    ((rotational_sort points ids ccw centre).1.zip
      (rotational_sort points ids ccw centre).2).Perm (points.zip ids) ∧
    (ccw = false →
      (rotational_sort points ids ccw centre).1.Pairwise (fun p q =>
        angleLtB (rsKey (rsAvg points centre) (maxQ (points.map (fun r => r.2))) q)
          (rsKey (rsAvg points centre) (maxQ (points.map (fun r => r.2))) p) = false)) ∧
    (ccw = true →
      (rotational_sort points ids ccw centre).1.Pairwise (fun p q =>
        angleLtB (rsKey (rsAvg points centre) (maxQ (points.map (fun r => r.2))) p)
          (rsKey (rsAvg points centre) (maxQ (points.map (fun r => r.2))) q) = false)) := by
  have hval : ∀ p ∈ points,
      (rsKey (rsAvg points centre) (maxQ (points.map (fun r => r.2))) p).valid := by
    intro p hp
    constructor
    · have hM2 : (0 : ℚ) < (maxQ (points.map (fun r => r.2))) ^ 2 := by
        rcases lt_or_gt_of_ne hM with h | h
        · nlinarith
        · nlinarith
      have hd : (0 : ℚ) < (p.1 - (rsAvg points centre).1) ^ 2 +
          (p.2 - (rsAvg points centre).2) ^ 2 := by
        rcases eq_or_ne p.1 (rsAvg points centre).1 with h1 | h1
        · have h2 : p.2 ≠ (rsAvg points centre).2 := by
            intro h2
            exact hctr p hp (Prod.ext h1 h2)
          have h3 : p.2 - (rsAvg points centre).2 ≠ 0 := sub_ne_zero.mpr h2
          nlinarith [sq_nonneg (p.1 - (rsAvg points centre).1), sq_pos_of_ne_zero h3]
        · have h3 : p.1 - (rsAvg points centre).1 ≠ 0 := sub_ne_zero.mpr h1
          nlinarith [sq_nonneg (p.2 - (rsAvg points centre).2), sq_pos_of_ne_zero h3]
      exact mul_pos hM2 hd
    · simp only [rsKey]
      nlinarith [sq_nonneg ((maxQ (points.map (fun r => r.2))) *
        (p.1 - (rsAvg points centre).1)), sq_nonneg (maxQ (points.map (fun r => r.2))),
        sq_nonneg (p.1 - (rsAvg points centre).1)]
  set avg := rsAvg points centre with havg
  set M := maxQ (points.map (fun r => r.2)) with hMdef
  set key := rsKey avg M with hkeydef
  set T : List (AKey × ((ℚ × ℚ) × ℤ)) :=
    (points.zip ids).map (fun pi => (key pi.1, pi)) with hT
  have hres1 : (rotational_sort points ids ccw centre).1 =
      (iSort (leP ccw) T).map (fun t => t.2.1) := by
    show (iSort (pairLeB ptLeB ccw) (points.map (fun p => (key p, p)))).map (fun t => t.2) = _
    rw [← zip_tag_proj1 key points ids hlen, ← hT,
      iSort_map (fun t => ((t.1, t.2.1) : AKey × (ℚ × ℚ))) (pairLeB ptLeB ccw) T,
      List.map_map]
    rfl
  have hres2 : (rotational_sort points ids ccw centre).2 =
      (iSort (leI ccw) T).map (fun t => t.2.2) := by
    show (iSort (pairLeB idLeB ccw)
      ((points.zip ids).map (fun pi => (key pi.1, pi.2)))).map (fun t => t.2) = _
    have hm : (points.zip ids).map (fun pi => (key pi.1, pi.2)) =
        T.map (fun t => ((t.1, t.2.2) : AKey × ℤ)) := by
      rw [hT, List.map_map]
      rfl
    rw [hm, iSort_map (fun t => ((t.1, t.2.2) : AKey × ℤ)) (pairLeB idLeB ccw) T,
      List.map_map]
    rfl
  have hkeysT : ∀ t ∈ T, t.1 = key t.2.1 ∧ t.2.1 ∈ points := by
    intro t ht
    rw [hT] at ht
    obtain ⟨pi, hpi, rfl⟩ := List.mem_map.1 ht
    exact ⟨rfl, (List.of_mem_zip hpi).1⟩
  have hvalT : ∀ t ∈ T, (t.1).valid := by
    intro t ht
    obtain ⟨h1, h2⟩ := hkeysT t ht
    rw [h1]
    exact hval _ h2
  have hcmpT : ∀ x ∈ T, ∀ y ∈ T, x ≠ y →
      (angleLtB x.1 y.1 = true ∨ angleLtB y.1 x.1 = true) := by
    have h1 : T.map (fun t => t.1) = points.map key := zip_tag_keys key points ids hlen
    have h2 : T.Pairwise (fun x y => angleLtB x.1 y.1 = true ∨ angleLtB y.1 x.1 = true) := by
      have h3 := hcmp
      rw [← h1] at h3
      exact (List.pairwise_map).1 h3
    intro x hx y hy hxy
    exact h2.forall (fun _ _ h => h.symm) hx hy hxy
  have hreflP : ∀ w : AKey × ((ℚ × ℚ) × ℤ), leP ccw w w = true := by
    intro w
    cases ccw <;> simp [leP, pairLeB, angleLtB_irrefl, ptLeB]
  have hreflI : ∀ w : AKey × ((ℚ × ℚ) × ℤ), leI ccw w w = true := by
    intro w
    cases ccw <;> simp [leI, pairLeB, angleLtB_irrefl, idLeB]
  have hagree : ∀ x ∈ T, ∀ y ∈ T, leP ccw x y = leI ccw x y := by
    intro x hx y hy
    by_cases hxy : x = y
    · subst hxy
      rw [hreflP x, hreflI x]
    · rcases hcmpT x hx y hy hxy with hlt | hlt
      · have hrev : angleLtB y.1 x.1 = false := angleLtB_asymm hlt
        cases ccw <;> simp [leP, leI, pairLeB, hlt, hrev]
      · have hrev : angleLtB x.1 y.1 = false := angleLtB_asymm hlt
        cases ccw <;> simp [leP, leI, pairLeB, hlt, hrev]
  have hsorteq : iSort (leI ccw) T = iSort (leP ccw) T := (iSort_congr T hagree).symm
  have hSperm : (iSort (leP ccw) T).Perm T := iSort_perm (leP ccw) T
  have hSmem : ∀ t ∈ iSort (leP ccw) T, t ∈ T := fun t ht => hSperm.mem_iff.1 ht
  have hTmap : T.map (fun t => t.2) = points.zip ids := by
    rw [hT, List.map_map]
    exact List.map_id _
  have hzip : ((rotational_sort points ids ccw centre).1.zip
      (rotational_sort points ids ccw centre).2) =
      (iSort (leP ccw) T).map (fun t => t.2) := by
    rw [hres1, hres2, hsorteq, List.zip_map']
  have hlt_of_le : ∀ x ∈ T, ∀ y ∈ T, x ≠ y → leP ccw x y = true →
      (if ccw then angleLtB y.1 x.1 else angleLtB x.1 y.1) = true := by
    intro x hx y hy hxy hle
    rcases hcmpT x hx y hy hxy with hlt | hlt
    · cases hc : ccw
      · rw [hc] at hle
        simpa using hlt
      · rw [hc] at hle
        simp only [leP, pairLeB, hlt, angleLtB_asymm hlt, if_true, if_false,
          Bool.false_eq_true] at hle
    · cases hc : ccw
      · rw [hc] at hle
        simp only [leP, pairLeB, hlt, angleLtB_asymm hlt, if_true, if_false,
          Bool.false_eq_true] at hle
      · rw [hc] at hle
        simpa using hlt
  have htot : ∀ x ∈ T, ∀ y ∈ T, leP ccw x y = true ∨ leP ccw y x = true := by
    intro x hx y hy
    by_cases hxy : x = y
    · subst hxy
      exact Or.inl (hreflP x)
    · rcases hcmpT x hx y hy hxy with hlt | hlt
      · cases hc : ccw
        · exact Or.inl (by simp [leP, pairLeB, hlt])
        · exact Or.inr (by simp [leP, pairLeB, hlt, angleLtB_asymm hlt])
      · cases hc : ccw
        · exact Or.inr (by simp [leP, pairLeB, hlt])
        · exact Or.inl (by simp [leP, pairLeB, hlt, angleLtB_asymm hlt])
  have htrans : ∀ x ∈ T, ∀ y ∈ T, ∀ z ∈ T,
      leP ccw x y = true → leP ccw y z = true → leP ccw x z = true := by
    intro x hx y hy z hz h1 h2
    by_cases hxy : x = y
    · subst hxy
      exact h2
    by_cases hyz : y = z
    · subst hyz
      exact h1
    by_cases hxz : x = z
    · subst hxz
      exact hreflP x
    have l1 := hlt_of_le x hx y hy hxy h1
    have l2 := hlt_of_le y hy z hz hyz h2
    cases hc : ccw
    · rw [hc] at l1 l2
      simp only [if_false, Bool.false_eq_true] at l1 l2
      have l3 : angleLtB x.1 z.1 = true :=
        angleLtB_trans (hvalT x hx) (hvalT y hy) (hvalT z hz) l1 l2
      simp [leP, pairLeB, l3]
    · rw [hc] at l1 l2
      simp only [if_true] at l1 l2
      have l3 : angleLtB z.1 x.1 = true :=
        angleLtB_trans (hvalT z hz) (hvalT y hy) (hvalT x hx) l2 l1
      simp [leP, pairLeB, l3]
  have hpairS : (iSort (leP ccw) T).Pairwise (fun x y => leP ccw x y = true) :=
    pairwise_iSort htot htrans
  refine ⟨?_, ?_, ?_⟩
  · rw [hzip]
    have hp := hSperm.map (fun t => t.2)
    rw [hTmap] at hp
    exact hp
  · intro hc
    subst hc
    rw [hres1, List.pairwise_map]
    refine hpairS.imp_of_mem ?_
    intro a b ha hb hab
    have hka := (hkeysT a (hSmem a ha)).1
    have hkb := (hkeysT b (hSmem b hb)).1
    rw [← hka, ← hkb]
    cases h2 : angleLtB b.1 a.1
    · rfl
    · exfalso
      by_cases h1 : angleLtB a.1 b.1 = true
      · have h3 := angleLtB_asymm h1
        rw [h2] at h3
        cases h3
      · simp [leP, pairLeB, h1, h2] at hab
  · intro hc
    subst hc
    rw [hres1, List.pairwise_map]
    refine hpairS.imp_of_mem ?_
    intro a b ha hb hab
    have hka := (hkeysT a (hSmem a ha)).1
    have hkb := (hkeysT b (hSmem b hb)).1
    rw [← hka, ← hkb]
    cases h2 : angleLtB a.1 b.1
    · rfl
    · exfalso
      by_cases h1 : angleLtB b.1 a.1 = true
      · have h3 := angleLtB_asymm h1
        rw [h2] at h3
        cases h3
      · simp [leP, pairLeB, h1, h2] at hab

/-- Witness for C5 amended at three points with pairwise distinct angles. -/
theorem C5_witness :
    (([10, 20, 30] : List ℤ).length = ([(6, 6), (4, 3), (5, 1)] : List (ℚ × ℚ)).length) ∧
    maxQ ([(6, 6), (4, 3), (5, 1)].map (fun p : ℚ × ℚ => p.2)) ≠ 0 ∧
    (∀ p ∈ ([(6, 6), (4, 3), (5, 1)] : List (ℚ × ℚ)),
      p ≠ rsAvg [(6, 6), (4, 3), (5, 1)] none) ∧
    ((rotational_sort [(6, 6), (4, 3), (5, 1)] [10, 20, 30] false none).1.zip
      (rotational_sort [(6, 6), (4, 3), (5, 1)] [10, 20, 30] false none).2).Perm
      ([(6, 6), (4, 3), (5, 1)].zip [10, 20, 30]) :=
  ⟨by decide, by decide, by decide,
   (C5_amended_pairing [(6, 6), (4, 3), (5, 1)] [10, 20, 30] false none
     (by decide) (by decide) (by decide) (by decide)).1⟩

end VoronoiTest
